import Mathlib

/-!
Verification of `scripts/pack.py`, a tool that lists project directories,
lets an operator pick one, recursively collects source files of known
extensions and writes them into one delimited prompt file.

The filesystem is modelled as a finite tree.  A file carries its text
content; `none` models a file whose read or UTF-8 decode raises an
exception.  A directory carries an ordered list of named children, the
order being the enumeration order of `os.listdir` / `os.walk`.
-/

mutual

inductive FS where
  | file (content : Option String)
  | dir (children : Entries)

inductive Entries where
  | nil
  | cons (name : String) (tree : FS) (rest : Entries)

end

/-- The names of the children of a directory, in enumeration order:
the model of `os.listdir`. -/
def Entries.names : Entries → List String
  | .nil => []
  | .cons n _ rest => n :: rest.names

/-- The children of a directory as an ordinary list of pairs. -/
def Entries.toList : Entries → List (String × FS)
  | .nil => []
  | .cons n t rest => (n, t) :: rest.toList

/-- Look up a child by name (first match). -/
def Entries.lookup : Entries → String → Option FS
  | .nil, _ => none
  | .cons n t rest, d => if n = d then some t else rest.lookup d

/-- The model of `os.path.isdir` on a tree node. -/
def FS.isDir : FS → Bool
  | .file _ => false
  | .dir _ => true

/-- Model of the regex test `re.match(r'^\d', d)`: the test succeeds
exactly when the first character of the name is a decimal digit (the
digits are modelled as the ASCII decimal digits). -/
def startsWithDigit (s : String) : Bool :=
  match s.data with
  | [] => false
  | c :: _ => c.isDigit

/-- `get_project_directories` from `pack.py`: the list comprehension keeps
each name `d` of `os.listdir(base_path)` for which
`os.path.isdir(os.path.join(base_path, d))` holds and `re.match(r'^\d', d)`
succeeds, in enumeration order. -/
def get_project_directories (base : Entries) : List String :=
  base.names.filter (fun d =>
    (match base.lookup d with
     | some t => t.isDir
     | none => false) && startsWithDigit d)

/-- The fixed extension tuple of `collect_source_files`. -/
def sourceExtensions : List String :=
  [".rs", ".glsl", ".wgsl", ".h", ".cpp", ".py", ".js", ".ts"]

/-- The suffix test `file.endswith((".rs", ".glsl", ...))` from
`collect_source_files`: case-sensitive exact suffix match against one of
the recognized extensions, modelled on the character sequence of the
name. -/
def hasSourceExt (name : String) : Bool :=
  sourceExtensions.any (fun e => e.data.isSuffixOf name.data)

/-- Rendering of a relative path from its components with the `/`
separator: the model of the strings produced by
`os.path.relpath(os.path.join(root, file), project_path)`. -/
def renderPath : List String → String
  | [] => ""
  | [n] => n
  | n :: rest => n ++ "/" ++ renderPath rest

mutual

/-- The walk of `collect_source_files` over a tree, carrying the relative
directory `relDir` (the components of `root` relative to `project_path`).
`os.walk` visits the files of the current directory first, then recurses
into the subdirectories in enumeration order.  A matched file whose read
fails (content `none`) aborts the whole collection, as the uncaught
exception does in Python. -/
def walkFS (relDir : List String) : FS → Option (List (String × String))
  | .file _ => some []
  | .dir children =>
    match readRootFiles relDir children with
    | none => none
    | some rootFs =>
      match walkEntries relDir children with
      | none => none
      | some subFs => some (rootFs ++ subFs)

/-- The inner `for file in files` loop of `collect_source_files`: each
file child whose name passes the suffix test is opened and read, and the
pair (relative path, content) is recorded in walk order. -/
def readRootFiles (relDir : List String) : Entries → Option (List (String × String))
  | .nil => some []
  | .cons n t rest =>
    match t with
    | .file content =>
      if hasSourceExt n then
        match content with
        | none => none
        | some c =>
          match readRootFiles relDir rest with
          | none => none
          | some m => some ((renderPath (relDir ++ [n]), c) :: m)
      else readRootFiles relDir rest
    | .dir _ => readRootFiles relDir rest

/-- The recursion of `os.walk` into the subdirectory children, in
enumeration order. -/
def walkEntries (relDir : List String) : Entries → Option (List (String × String))
  | .nil => some []
  | .cons n t rest =>
    match t with
    | .dir _ =>
      match walkFS (relDir ++ [n]) t with
      | none => none
      | some m1 =>
        match walkEntries relDir rest with
        | none => none
        | some m2 => some (m1 ++ m2)
    | .file _ => walkEntries relDir rest

end

/-- `collect_source_files` from `pack.py`: the mapping from relative path
to file content built by the walk, as an insertion-ordered association
list (Python dicts preserve insertion order).  `none` models the
propagated exception of a failed read. -/
def collect_source_files (t : FS) : Option (List (String × String)) :=
  walkFS [] t

/-- `create_prompt` from `pack.py`: a leading triple-quote marker, one
fenced block per collected file in mapping order, a trailing triple-quote
marker, joined with newlines. -/
def create_prompt (source_files : List (String × String)) : String :=
  String.intercalate "\n"
    (["\"\"\""] ++
      source_files.map (fun fc =>
        "```\n### File: " ++ fc.1 ++ "\n\n" ++ fc.2 ++ "\n```\n") ++
      ["\"\"\""])

/-- The observable outcome of one run of `main` from `pack.py`: an
invalid-input message (non-integer line), an invalid-choice message
(integer out of range), a fatal uncaught exception during collection, or
a single file write of `content` at `path`. -/
inductive Outcome where
  | invalidInput
  | invalidChoice
  | fatalError
  | written (path : String) (content : String)
deriving DecidableEq

/-- `main` from `pack.py`.  `basePath` is the resolved base path string,
`base` its directory listing, and `inputLine` the operator's line already
parsed by `int(...)` (`none` models the `ValueError` branch).  `os.walk`
on a path that does not exist yields no triples, hence the empty-directory
default in the lookup. -/
def pyMain (basePath : String) (base : Entries) (inputLine : Option Int) : Outcome :=
  let projects := get_project_directories base
  match inputLine with
  | none => Outcome.invalidInput
  | some choice =>
    if choice < 0 ∨ (projects.length : Int) ≤ choice then Outcome.invalidChoice
    else
      let selected := projects.getD choice.toNat ""
      match collect_source_files ((base.lookup selected).getD (FS.dir Entries.nil)) with
      | none => Outcome.fatalError
      | some source_files =>
        Outcome.written (basePath ++ "/scripts/" ++ selected ++ "_prompt.txt")
          (create_prompt source_files)

mutual

/-- All files at any depth beneath a tree, in walk order, with their
relative path components and raw content.  This is the specification-side
enumeration the collector is measured against. -/
def allFiles (relDir : List String) : FS → List (List String × Option String)
  | .file _ => []
  | .dir children => rootAllFiles relDir children ++ subAllFiles relDir children

/-- The immediate file children of a directory, with their path
components. -/
def rootAllFiles (relDir : List String) : Entries → List (List String × Option String)
  | .nil => []
  | .cons n t rest =>
    (match t with
     | .file c => [(relDir ++ [n], c)]
     | .dir _ => []) ++ rootAllFiles relDir rest

/-- The files beneath the subdirectory children of a directory. -/
def subAllFiles (relDir : List String) : Entries → List (List String × Option String)
  | .nil => []
  | .cons n t rest =>
    (match t with
     | .dir _ => allFiles (relDir ++ [n]) t
     | .file _ => []) ++ subAllFiles relDir rest

end

/-- The last path component of a relative path: the file's name. -/
def lastNameD (comps : List String) : String :=
  comps.getLastD ""

/-- The entry the walk keeps for one visited file, if any: files whose
name passes the suffix test, keyed by the rendered relative path. -/
def keepEntry (pr : List String × Option String) : Option (String × String) :=
  match pr.2 with
  | some c =>
    if hasSourceExt (lastNameD pr.1) then some (renderPath pr.1, c) else none
  | none => none

/-- A legal filesystem name: nonempty and free of the path separator. -/
def validName (n : String) : Bool :=
  !(n == "") && !(n.data.contains '/')

mutual

/-- Well-formedness of a tree as a real filesystem: in every directory the
child names are legal and pairwise distinct. -/
def FS.wf : FS → Bool
  | .file _ => true
  | .dir children => children.wf

/-- Well-formedness of a child list. -/
def Entries.wf : Entries → Bool
  | .nil => true
  | .cons n t rest =>
    validName n && !(rest.names.contains n) && t.wf && rest.wf

end

/-- A filesystem access performed by the tool: a read of the file at a
relative path, or a write of new content at a relative path. -/
inductive FSEvent where
  | readEv (comps : List String)
  | writeEv (comps : List String) (content : String)

/-- Whether an access is a read. -/
def FSEvent.isRead : FSEvent → Bool
  | .readEv _ => true
  | .writeEv _ _ => false

mutual

/-- The filesystem accesses `collect_source_files` performs on a tree, in
walk order: one read per file whose name passes the suffix test (the
`open(..., 'r')` calls), and nothing else. -/
def eventsFS (relDir : List String) : FS → List FSEvent
  | .file _ => []
  | .dir children => rootEvents relDir children ++ subEvents relDir children

/-- The reads issued by the inner `for file in files` loop. -/
def rootEvents (relDir : List String) : Entries → List FSEvent
  | .nil => []
  | .cons n t rest =>
    (match t with
     | .file _ =>
       if hasSourceExt n then [FSEvent.readEv (relDir ++ [n])] else []
     | .dir _ => []) ++ rootEvents relDir rest

/-- The accesses issued while walking the subdirectory children. -/
def subEvents (relDir : List String) : Entries → List FSEvent
  | .nil => []
  | .cons n t rest =>
    (match t with
     | .dir _ => eventsFS (relDir ++ [n]) t
     | .file _ => []) ++ subEvents relDir rest

end

/-- The access trace of `collect_source_files` on a project tree. -/
def collectEvents (t : FS) : List FSEvent :=
  eventsFS [] t

mutual

/-- Replace the content of the file at a component path (the effect of a
write); the tree is unchanged when the path does not lead to an existing
entry. -/
def FS.setFile : FS → List String → String → FS
  | t, [], _ => t
  | .file c, _ :: _, _ => .file c
  | .dir children, n :: rest, newC => .dir (children.setFile n rest newC)

/-- Replace within a child list. -/
def Entries.setFile : Entries → String → List String → String → Entries
  | .nil, _, _, _ => .nil
  | .cons m t rest, n, comps, newC =>
    if m = n then
      match comps with
      | [] => .cons m (FS.file (some newC)) rest
      | _ :: _ => .cons m (t.setFile comps newC) rest
    else .cons m t (rest.setFile n comps newC)

end

/-- The effect of one filesystem access on a tree: a read changes
nothing, a write replaces the addressed file's content. -/
def applyEvent (t : FS) : FSEvent → FS
  | .readEv _ => t
  | .writeEv comps c => t.setFile comps c

/-- The output format stated by the specification: a leading triple-quote
marker, then for each entry of the mapping, in its received order, one
fenced block made of a header line identifying the relative path, a blank
line and the raw file content, then the closing fence, and a trailing
triple-quote marker. -/
def promptSpecForm (source_files : List (String × String)) : String :=
  "\"\"\"" ++
    String.join (source_files.map (fun fc =>
      "\n" ++ ("```\n### File: " ++ fc.1 ++ "\n\n" ++ fc.2 ++ "\n```\n"))) ++
    ("\n" ++ "\"\"\"")

/-! ### String lemmas -/

theorem string_join_cons (a : String) (l : List String) :
    String.join (a :: l) = a ++ String.join l := by
  apply String.ext
  simp [String.data_join]

theorem string_join_append (l1 l2 : List String) :
    String.join (l1 ++ l2) = String.join l1 ++ String.join l2 := by
  apply String.ext
  simp [String.data_join]

theorem intercalate_go_eq (s : String) :
    ∀ (l : List String) (acc : String),
      String.intercalate.go acc s l = acc ++ String.join (l.map (fun a => s ++ a))
  | [], acc => by
    simp [String.intercalate.go, String.join]
  | a :: as, acc => by
    rw [String.intercalate.go, intercalate_go_eq s as (acc ++ s ++ a)]
    rw [List.map_cons, string_join_cons]
    simp [String.append_assoc]

theorem string_intercalate_cons (s a : String) (l : List String) :
    String.intercalate s (a :: l) = a ++ String.join (l.map (fun x => s ++ x)) := by
  rw [String.intercalate, intercalate_go_eq]

/-- The formatter produces exactly the shape stated by the spec. -/
theorem create_prompt_eq (sf : List (String × String)) :
    create_prompt sf = promptSpecForm sf := by
  unfold create_prompt promptSpecForm
  rw [List.singleton_append, List.cons_append, string_intercalate_cons, List.map_append,
    string_join_append, List.map_map]
  simp only [String.append_assoc, string_join_cons, String.join]
  congr 2

/-! ### Injectivity of path rendering on legal names -/

/-- Path rendering at the character level. -/
def renderChars : List (List Char) → List Char
  | [] => []
  | [c] => c
  | c :: rest => c ++ '/' :: renderChars rest

theorem renderPath_data : ∀ l : List String,
    (renderPath l).data = renderChars (l.map String.data)
  | [] => rfl
  | [n] => rfl
  | n :: m :: rest => by
    show (n ++ "/" ++ renderPath (m :: rest)).data =
      n.data ++ '/' :: renderChars ((m :: rest).map String.data)
    rw [String.data_append, String.data_append, renderPath_data (m :: rest)]
    simp

theorem renderChars_ne_nil (b : List Char) (bs : List (List Char)) (hb : b ≠ []) :
    renderChars (b :: bs) ≠ [] := by
  cases bs with
  | nil => exact hb
  | cons c cs =>
    show b ++ '/' :: renderChars (c :: cs) ≠ []
    simp

theorem chopSlash : ∀ (a b r1 r2 : List Char), '/' ∉ a → '/' ∉ b →
    a ++ '/' :: r1 = b ++ '/' :: r2 → a = b ∧ r1 = r2
  | [], [], r1, r2, _, _, h => by
    simp only [List.nil_append, List.cons.injEq] at h
    exact ⟨rfl, h.2⟩
  | [], x :: b2, r1, r2, _, hb, h => by
    simp only [List.nil_append, List.cons_append, List.cons.injEq] at h
    exact absurd (h.1 ▸ List.mem_cons_self x b2) hb
  | x :: a2, [], r1, r2, ha, _, h => by
    simp only [List.nil_append, List.cons_append, List.cons.injEq] at h
    exact absurd (h.1.symm ▸ List.mem_cons_self x a2) ha
  | x :: a2, y :: b2, r1, r2, ha, hb, h => by
    simp only [List.cons_append, List.cons.injEq] at h
    obtain ⟨rfl, h2⟩ := h
    have hr := chopSlash a2 b2 r1 r2 (fun hm => ha (List.mem_cons_of_mem x hm))
      (fun hm => hb (List.mem_cons_of_mem x hm)) h2
    exact ⟨by rw [hr.1], hr.2⟩

theorem renderChars_inj : ∀ l1 l2 : List (List Char),
    (∀ c ∈ l1, c ≠ [] ∧ '/' ∉ c) → (∀ c ∈ l2, c ≠ [] ∧ '/' ∉ c) →
    renderChars l1 = renderChars l2 → l1 = l2
  | [], [], _, _, _ => rfl
  | [], b :: bs, _, h2, h =>
    absurd h.symm (renderChars_ne_nil b bs (h2 b (List.mem_cons_self b bs)).1)
  | a :: as, [], h1, _, h =>
    absurd h (renderChars_ne_nil a as (h1 a (List.mem_cons_self a as)).1)
  | [a], [b], _, _, h => by rw [show a = b from h]
  | [a], b :: b2 :: bs, h1, h2, h => by
    exfalso
    have hmem : '/' ∈ renderChars (b :: b2 :: bs) := by
      show '/' ∈ b ++ '/' :: renderChars (b2 :: bs)
      simp
    rw [show renderChars [a] = a from rfl] at h
    exact (h1 a (List.mem_cons_self a [])).2 (h ▸ hmem)
  | a :: a2 :: as, [b], h1, h2, h => by
    exfalso
    have hmem : '/' ∈ renderChars (a :: a2 :: as) := by
      show '/' ∈ a ++ '/' :: renderChars (a2 :: as)
      simp
    rw [show renderChars [b] = b from rfl] at h
    exact (h2 b (List.mem_cons_self b [])).2 (h ▸ hmem)
  | a :: a2 :: as, b :: b2 :: bs, h1, h2, h => by
    have hc := chopSlash a b (renderChars (a2 :: as)) (renderChars (b2 :: bs))
      (h1 a (List.mem_cons_self a _)).2 (h2 b (List.mem_cons_self b _)).2 h
    have hrec := renderChars_inj (a2 :: as) (b2 :: bs)
      (fun c hc2 => h1 c (List.mem_cons_of_mem a hc2))
      (fun c hc2 => h2 c (List.mem_cons_of_mem b hc2)) hc.2
    rw [hc.1, hrec]

theorem validName_spec (n : String) (h : validName n = true) :
    n.data ≠ [] ∧ '/' ∉ n.data := by
  unfold validName at h
  rw [Bool.and_eq_true] at h
  obtain ⟨hne, hsl⟩ := h
  simp only [Bool.not_eq_eq_eq_not, Bool.not_true, beq_eq_false_iff_ne, ne_eq] at hne
  simp only [List.contains, Bool.not_eq_eq_eq_not, Bool.not_true] at hsl
  constructor
  · intro hd
    exact hne (String.ext hd)
  · intro hmem
    rw [List.elem_eq_true_of_mem hmem] at hsl
    simp at hsl

theorem renderPath_inj (l1 l2 : List String)
    (h1 : ∀ n ∈ l1, validName n = true) (h2 : ∀ n ∈ l2, validName n = true)
    (h : renderPath l1 = renderPath l2) : l1 = l2 := by
  have hd : (renderPath l1).data = (renderPath l2).data := by rw [h]
  rw [renderPath_data, renderPath_data] at hd
  have hmaps := renderChars_inj (l1.map String.data) (l2.map String.data)
    (by
      intro c hc
      obtain ⟨n, hn, rfl⟩ := List.mem_map.mp hc
      exact validName_spec n (h1 n hn))
    (by
      intro c hc
      obtain ⟨n, hn, rfl⟩ := List.mem_map.mp hc
      exact validName_spec n (h2 n hn))
    hd
  exact List.map_injective_iff.mpr (fun a b hab => String.ext hab) hmaps

/-! ### Directory listing lemmas -/

theorem mem_names_iff : ∀ (es : Entries) (d : String),
    d ∈ es.names ↔ ∃ t, (d, t) ∈ es.toList
  | .nil, d => by simp [Entries.names, Entries.toList]
  | .cons n t rest, d => by
    simp only [Entries.names, Entries.toList, List.mem_cons, mem_names_iff rest d,
      Prod.mk.injEq]
    constructor
    · rintro (rfl | ⟨u, hu⟩)
      · exact ⟨t, Or.inl ⟨rfl, rfl⟩⟩
      · exact ⟨u, Or.inr hu⟩
    · rintro ⟨u, ⟨rfl, rfl⟩ | hu⟩
      · exact Or.inl rfl
      · exact Or.inr ⟨u, hu⟩

theorem contains_false_not_mem {l : List String} {a : String}
    (h : (!l.contains a) = true) : a ∉ l := by
  intro hmem
  simp only [List.contains] at h
  rw [List.elem_eq_true_of_mem hmem] at h
  simp at h

theorem wf_names_nodup : ∀ es : Entries, es.wf = true → es.names.Nodup
  | .nil, _ => by simp [Entries.names]
  | .cons n t rest, h => by
    unfold Entries.wf at h
    simp only [Bool.and_eq_true] at h
    obtain ⟨⟨⟨_, hnc⟩, _⟩, hrest⟩ := h
    simp only [Entries.names, List.nodup_cons]
    exact ⟨contains_false_not_mem hnc, wf_names_nodup rest hrest⟩

theorem lookup_eq_some_iff : ∀ (es : Entries), es.wf = true → ∀ (d : String) (t : FS),
    (es.lookup d = some t ↔ (d, t) ∈ es.toList)
  | .nil, _, d, t => by simp [Entries.lookup, Entries.toList]
  | .cons n u rest, h, d, t => by
    unfold Entries.wf at h
    simp only [Bool.and_eq_true] at h
    obtain ⟨⟨⟨_, hnc⟩, _⟩, hrest⟩ := h
    have hnotmem : n ∉ rest.names := contains_false_not_mem hnc
    by_cases hnd : n = d
    · subst hnd
      simp only [Entries.lookup, if_pos rfl, if_true, Entries.toList, List.mem_cons,
        Prod.mk.injEq, Option.some.injEq]
      constructor
      · intro ht
        exact Or.inl ⟨trivial, ht.symm⟩
      · rintro (⟨-, rfl⟩ | hmem)
        · rfl
        · exact absurd ((mem_names_iff rest n).mpr ⟨t, hmem⟩) hnotmem
    · simp only [Entries.lookup, if_neg hnd, Entries.toList, List.mem_cons, Prod.mk.injEq]
      rw [lookup_eq_some_iff rest hrest d t]
      constructor
      · exact Or.inr
      · rintro (⟨rfl, -⟩ | hmem)
        · exact absurd rfl hnd
        · exact hmem

/-! ### The walk against the specification-side enumeration -/

theorem getLastD_append_single : ∀ (l : List String) (d n : String),
    (l ++ [n]).getLastD d = n
  | [], _, _ => rfl
  | a :: l, _, n => by
    rw [List.cons_append, List.getLastD_cons, getLastD_append_single l a n]

theorem lastNameD_append (l : List String) (n : String) : lastNameD (l ++ [n]) = n :=
  getLastD_append_single l "" n

mutual

theorem walkFS_eq_keep : ∀ (relDir : List String) (t : FS) (m : List (String × String)),
    walkFS relDir t = some m → m = (allFiles relDir t).filterMap keepEntry
  | relDir, .file c, m => by
    intro h
    simp only [walkFS, Option.some.injEq] at h
    simp [allFiles, ← h]
  | relDir, .dir ch, m => by
    intro h
    simp only [walkFS] at h
    cases hr : readRootFiles relDir ch with
    | none => rw [hr] at h; exact absurd h (by simp)
    | some rootFs =>
      rw [hr] at h
      cases hw : walkEntries relDir ch with
      | none => rw [hw] at h; exact absurd h (by simp)
      | some subFs =>
        rw [hw] at h
        simp only [Option.some.injEq] at h
        rw [← h, allFiles, List.filterMap_append,
          ← readRootFiles_eq_keep relDir ch rootFs hr,
          ← walkEntries_eq_keep relDir ch subFs hw]

theorem readRootFiles_eq_keep :
    ∀ (relDir : List String) (es : Entries) (m : List (String × String)),
    readRootFiles relDir es = some m → m = (rootAllFiles relDir es).filterMap keepEntry
  | relDir, .nil, m => by
    intro h
    simp only [readRootFiles, Option.some.injEq] at h
    simp [rootAllFiles, ← h]
  | relDir, .cons n t rest, m => by
    intro h
    cases t with
    | file content =>
      simp only [readRootFiles] at h
      by_cases he : hasSourceExt n = true
      · rw [if_pos he] at h
        cases content with
        | none => exact absurd h (by simp)
        | some c =>
          cases hrr : readRootFiles relDir rest with
          | none => rw [hrr] at h; exact absurd h (by simp)
          | some m2 =>
            rw [hrr] at h
            simp only [Option.some.injEq] at h
            have hk : keepEntry (relDir ++ [n], some c) =
                some (renderPath (relDir ++ [n]), c) := by
              simp [keepEntry, lastNameD_append, he]
            rw [← h]
            simp only [rootAllFiles, List.singleton_append, List.filterMap_cons, hk]
            rw [readRootFiles_eq_keep relDir rest m2 hrr]
      · rw [if_neg he] at h
        have he2 : hasSourceExt n = false := Bool.not_eq_true _ ▸ he
        have hk : keepEntry (relDir ++ [n], content) = none := by
          cases content with
          | none => simp [keepEntry]
          | some c => simp [keepEntry, lastNameD_append, he2]
        rw [readRootFiles_eq_keep relDir rest m h]
        simp only [rootAllFiles, List.singleton_append, List.filterMap_cons, hk]
    | dir ch =>
      simp only [readRootFiles] at h
      rw [readRootFiles_eq_keep relDir rest m h]
      simp [rootAllFiles]

theorem walkEntries_eq_keep :
    ∀ (relDir : List String) (es : Entries) (m : List (String × String)),
    walkEntries relDir es = some m → m = (subAllFiles relDir es).filterMap keepEntry
  | relDir, .nil, m => by
    intro h
    simp only [walkEntries, Option.some.injEq] at h
    simp [subAllFiles, ← h]
  | relDir, .cons n t rest, m => by
    intro h
    cases t with
    | dir ch =>
      simp only [walkEntries] at h
      cases h1 : walkFS (relDir ++ [n]) (FS.dir ch) with
      | none => rw [h1] at h; exact absurd h (by simp)
      | some m1 =>
        rw [h1] at h
        cases h2 : walkEntries relDir rest with
        | none => rw [h2] at h; exact absurd h (by simp)
        | some m2 =>
          rw [h2] at h
          simp only [Option.some.injEq] at h
          rw [← h]
          simp only [subAllFiles, List.filterMap_append]
          rw [← walkFS_eq_keep (relDir ++ [n]) (FS.dir ch) m1 h1,
            ← walkEntries_eq_keep relDir rest m2 h2]
    | file c =>
      simp only [walkEntries] at h
      rw [walkEntries_eq_keep relDir rest m h]
      simp [subAllFiles]

end

/-! ### Distinctness of the collected relative paths -/

mutual

theorem allFiles_shape : ∀ (relDir : List String) (t : FS), t.wf = true →
    ((allFiles relDir t).map Prod.fst).Nodup ∧
    ∀ pr ∈ allFiles relDir t, ∃ rest, rest ≠ [] ∧ (∀ x ∈ rest, validName x = true) ∧
      pr.1 = relDir ++ rest
  | relDir, .file c, _ => by
    constructor
    · simp [allFiles]
    · intro pr hpr
      simp [allFiles] at hpr
  | relDir, .dir ch, h => by
    have hch : ch.wf = true := by
      unfold FS.wf at h
      exact h
    obtain ⟨hrn, hrs⟩ := rootAllFiles_shape relDir ch hch
    obtain ⟨hsn, hss⟩ := subAllFiles_shape relDir ch hch
    constructor
    · rw [allFiles, List.map_append]
      refine List.Nodup.append hrn hsn ?_
      intro x hx1 hx2
      obtain ⟨pr1, hpr1, rfl⟩ := List.mem_map.mp hx1
      obtain ⟨pr2, hpr2, hfst⟩ := List.mem_map.mp hx2
      obtain ⟨n, _, _, hsh1⟩ := hrs pr1 hpr1
      obtain ⟨n2, rest2, _, hne2, _, _, hsh2⟩ := hss pr2 hpr2
      rw [hsh1] at hfst
      rw [hsh2] at hfst
      have hc := List.append_cancel_left hfst
      simp only [List.cons.injEq] at hc
      exact hne2 hc.2
    · intro pr hpr
      rw [allFiles] at hpr
      rcases List.mem_append.mp hpr with hmem | hmem
      · obtain ⟨n, _, hv, hsh⟩ := hrs pr hmem
        exact ⟨[n], by simp, by simpa using hv, hsh⟩
      · obtain ⟨n, rest, _, _, hvn, hvr, hsh⟩ := hss pr hmem
        refine ⟨n :: rest, by simp, ?_, hsh⟩
        intro x hx
        rcases List.mem_cons.mp hx with rfl | hx2
        · exact hvn
        · exact hvr x hx2

theorem rootAllFiles_shape : ∀ (relDir : List String) (es : Entries), es.wf = true →
    ((rootAllFiles relDir es).map Prod.fst).Nodup ∧
    ∀ pr ∈ rootAllFiles relDir es, ∃ n, n ∈ es.names ∧ validName n = true ∧
      pr.1 = relDir ++ [n]
  | relDir, .nil, _ => by
    constructor
    · simp [rootAllFiles]
    · intro pr hpr
      simp [rootAllFiles] at hpr
  | relDir, .cons n t rest, h => by
    unfold Entries.wf at h
    simp only [Bool.and_eq_true] at h
    obtain ⟨⟨⟨hvn, hnc⟩, hwt⟩, hwr⟩ := h
    have hnotmem : n ∉ rest.names := contains_false_not_mem hnc
    obtain ⟨ihn, ihs⟩ := rootAllFiles_shape relDir rest hwr
    cases t with
    | file c =>
      constructor
      · simp only [rootAllFiles, List.singleton_append, List.map_cons, List.nodup_cons]
        refine ⟨?_, ihn⟩
        intro hmem
        obtain ⟨pr, hpr, hfst⟩ := List.mem_map.mp hmem
        obtain ⟨n2, hn2, _, hsh⟩ := ihs pr hpr
        rw [hsh] at hfst
        have : [n2] = [n] := List.append_cancel_left hfst
        simp only [List.cons.injEq] at this
        exact hnotmem (this.1 ▸ hn2)
      · intro pr hpr
        simp only [rootAllFiles, List.singleton_append, List.mem_cons] at hpr
        rcases hpr with rfl | hpr2
        · exact ⟨n, by simp [Entries.names], hvn, rfl⟩
        · obtain ⟨n2, hn2, hv2, hsh⟩ := ihs pr hpr2
          exact ⟨n2, by simp [Entries.names, hn2], hv2, hsh⟩
    | dir ch =>
      constructor
      · simpa [rootAllFiles] using ihn
      · intro pr hpr
        simp only [rootAllFiles, List.nil_append] at hpr
        obtain ⟨n2, hn2, hv2, hsh⟩ := ihs pr hpr
        exact ⟨n2, by simp [Entries.names, hn2], hv2, hsh⟩

theorem subAllFiles_shape : ∀ (relDir : List String) (es : Entries), es.wf = true →
    ((subAllFiles relDir es).map Prod.fst).Nodup ∧
    ∀ pr ∈ subAllFiles relDir es, ∃ n rest, n ∈ es.names ∧ rest ≠ [] ∧
      validName n = true ∧ (∀ x ∈ rest, validName x = true) ∧ pr.1 = relDir ++ n :: rest
  | relDir, .nil, _ => by
    constructor
    · simp [subAllFiles]
    · intro pr hpr
      simp [subAllFiles] at hpr
  | relDir, .cons n t rest, h => by
    unfold Entries.wf at h
    simp only [Bool.and_eq_true] at h
    obtain ⟨⟨⟨hvn, hnc⟩, hwt⟩, hwr⟩ := h
    have hnotmem : n ∉ rest.names := contains_false_not_mem hnc
    obtain ⟨ihn, ihs⟩ := subAllFiles_shape relDir rest hwr
    cases t with
    | dir ch =>
      obtain ⟨chn, chs⟩ := allFiles_shape (relDir ++ [n]) (FS.dir ch) hwt
      constructor
      · simp only [subAllFiles, List.map_append]
        refine List.Nodup.append chn ihn ?_
        intro x hx1 hx2
        obtain ⟨pr1, hpr1, rfl⟩ := List.mem_map.mp hx1
        obtain ⟨pr2, hpr2, hfst⟩ := List.mem_map.mp hx2
        obtain ⟨rest1, hne1, _, hsh1⟩ := chs pr1 hpr1
        obtain ⟨n2, rest2, hn2, _, _, _, hsh2⟩ := ihs pr2 hpr2
        rw [hsh1, List.append_assoc, List.singleton_append] at hfst
        rw [hsh2] at hfst
        have := List.append_cancel_left hfst.symm
        simp only [List.cons.injEq] at this
        exact hnotmem (this.1 ▸ hn2)
      · intro pr hpr
        simp only [subAllFiles] at hpr
        rcases List.mem_append.mp hpr with hmem | hmem
        · obtain ⟨rest1, hne1, hv1, hsh1⟩ := chs pr hmem
          refine ⟨n, rest1, by simp [Entries.names], hne1, hvn, hv1, ?_⟩
          rw [hsh1, List.append_assoc, List.singleton_append]
        · obtain ⟨n2, rest2, hn2, hne2, hv2, hvr2, hsh2⟩ := ihs pr hmem
          exact ⟨n2, rest2, by simp [Entries.names, hn2], hne2, hv2, hvr2, hsh2⟩
    | file c =>
      constructor
      · simpa [subAllFiles] using ihn
      · intro pr hpr
        simp only [subAllFiles, List.nil_append] at hpr
        obtain ⟨n2, rest2, hn2, hne2, hv2, hvr2, hsh2⟩ := ihs pr hpr
        exact ⟨n2, rest2, by simp [Entries.names, hn2], hne2, hv2, hvr2, hsh2⟩

end

/-! ### Keys of the collected mapping -/

theorem keepEntry_eq_some : ∀ (pr : List String × Option String) (q : String × String),
    keepEntry pr = some q →
    pr.2 = some q.2 ∧ hasSourceExt (lastNameD pr.1) = true ∧ q.1 = renderPath pr.1
  | (comps, none), q, h => by simp [keepEntry] at h
  | (comps, some c), q, h => by
    by_cases he : hasSourceExt (lastNameD comps) = true
    · simp only [keepEntry, he, if_true] at h
      obtain rfl := Option.some.inj h
      exact ⟨rfl, he, rfl⟩
    · simp only [keepEntry] at h
      rw [if_neg he] at h
      simp at h

theorem keepEntry_keeps (comps : List String) (c : String)
    (he : hasSourceExt (lastNameD comps) = true) :
    keepEntry (comps, some c) = some (renderPath comps, c) := by
  simp [keepEntry, he]

theorem map_fst_filterMap_keep : ∀ l : List (List String × Option String),
    ((l.filterMap keepEntry).map Prod.fst).Sublist (l.map (fun pr => renderPath pr.1))
  | [] => by simp
  | pr :: l => by
    cases hk : keepEntry pr with
    | none =>
      simp only [List.filterMap_cons, hk, List.map_cons]
      exact (map_fst_filterMap_keep l).cons _
    | some q =>
      simp only [List.filterMap_cons, hk, List.map_cons]
      rw [(keepEntry_eq_some pr q hk).2.2]
      exact (map_fst_filterMap_keep l).cons₂ _

theorem allFiles_root_valid (t : FS) (hwf : t.wf = true) (pr : List String × Option String)
    (hpr : pr ∈ allFiles [] t) : ∀ x ∈ pr.1, validName x = true := by
  obtain ⟨rest, _, hv, hsh⟩ := (allFiles_shape [] t hwf).2 pr hpr
  rw [List.nil_append] at hsh
  rw [hsh]
  exact hv

theorem collect_keys_nodup (t : FS) (hwf : t.wf = true) (m : List (String × String))
    (hm : walkFS [] t = some m) : (m.map Prod.fst).Nodup := by
  have hn := (allFiles_shape [] t hwf).1
  have hmap : ((allFiles [] t).map (fun pr => renderPath pr.1)).Nodup := by
    have hrw : (allFiles [] t).map (fun pr => renderPath pr.1) =
        ((allFiles [] t).map Prod.fst).map renderPath := by
      simp [List.map_map, Function.comp]
    rw [hrw]
    refine List.Nodup.map_on ?_ hn
    intro x hx y hy hxy
    obtain ⟨prx, hprx, rfl⟩ := List.mem_map.mp hx
    obtain ⟨pry, hpry, rfl⟩ := List.mem_map.mp hy
    exact renderPath_inj prx.1 pry.1 (allFiles_root_valid t hwf prx hprx)
      (allFiles_root_valid t hwf pry hpry) hxy
  rw [walkFS_eq_keep [] t m hm]
  exact List.Nodup.sublist (map_fst_filterMap_keep (allFiles [] t)) hmap

/-! ### The collector's access trace -/

mutual

theorem eventsFS_all_read : ∀ (relDir : List String) (t : FS),
    (eventsFS relDir t).all FSEvent.isRead = true
  | relDir, .file _ => by simp [eventsFS]
  | relDir, .dir ch => by
    simp only [eventsFS, List.all_append, Bool.and_eq_true]
    exact ⟨rootEvents_all_read relDir ch, subEvents_all_read relDir ch⟩

theorem rootEvents_all_read : ∀ (relDir : List String) (es : Entries),
    (rootEvents relDir es).all FSEvent.isRead = true
  | relDir, .nil => by simp [rootEvents]
  | relDir, .cons n t rest => by
    simp only [rootEvents, List.all_append, Bool.and_eq_true]
    refine ⟨?_, rootEvents_all_read relDir rest⟩
    cases t with
    | file c =>
      by_cases he : hasSourceExt n = true
      · simp [he, FSEvent.isRead]
      · simp [Bool.not_eq_true _ ▸ he]
    | dir ch => simp

theorem subEvents_all_read : ∀ (relDir : List String) (es : Entries),
    (subEvents relDir es).all FSEvent.isRead = true
  | relDir, .nil => by simp [subEvents]
  | relDir, .cons n t rest => by
    simp only [subEvents, List.all_append, Bool.and_eq_true]
    refine ⟨?_, subEvents_all_read relDir rest⟩
    cases t with
    | dir ch => exact eventsFS_all_read (relDir ++ [n]) (FS.dir ch)
    | file c => simp

end

theorem foldl_reads : ∀ (evs : List FSEvent), evs.all FSEvent.isRead = true →
    ∀ g : FS, evs.foldl applyEvent g = g
  | [], _, g => rfl
  | e :: evs, h, g => by
    simp only [List.all_cons, Bool.and_eq_true] at h
    cases e with
    | readEv p =>
      rw [List.foldl_cons]
      exact foldl_reads evs h.2 g
    | writeEv p c => simp [FSEvent.isRead] at h

/-! ### Inversion of a run that writes -/

theorem pyMain_written_inv (bp : String) (base : Entries) (inp : Option Int)
    (p c : String) (h : pyMain bp base inp = Outcome.written p c) :
    ∃ ch m, inp = some ch ∧
      ¬(ch < 0 ∨ ((get_project_directories base).length : Int) ≤ ch) ∧
      collect_source_files
        ((base.lookup ((get_project_directories base).getD ch.toNat "")).getD
          (FS.dir Entries.nil)) = some m ∧
      p = bp ++ "/scripts/" ++ (get_project_directories base).getD ch.toNat "" ++
        "_prompt.txt" ∧
      c = create_prompt m := by
  cases inp with
  | none => simp [pyMain] at h
  | some ch =>
    simp only [pyMain] at h
    by_cases hrange : ch < 0 ∨ ((get_project_directories base).length : Int) ≤ ch
    · rw [if_pos hrange] at h
      exact absurd h (by simp)
    · rw [if_neg hrange] at h
      cases hcol : collect_source_files
          ((base.lookup ((get_project_directories base).getD ch.toNat "")).getD
            (FS.dir Entries.nil)) with
      | none =>
        rw [hcol] at h
        exact absurd h (by simp)
      | some m =>
        rw [hcol] at h
        simp only [Outcome.written.injEq] at h
        exact ⟨ch, m, rfl, hrange, hcol, h.1.symm, h.2.symm⟩

/-! ### The claims -/

/-- C1: for every base path and every entry name directly under it, the
Project Lister includes that name in its result if and only if the entry
is a directory and the name's first character is a decimal digit;
non-directory entries and names not starting with a digit are excluded,
and only the immediate children are consulted. -/
theorem C1_lister_iff (base : Entries) (hwf : base.wf = true) (d : String) :
    d ∈ get_project_directories base ↔
      ∃ t, (d, t) ∈ base.toList ∧ t.isDir = true ∧ startsWithDigit d = true := by
  unfold get_project_directories
  rw [List.mem_filter]
  constructor
  · rintro ⟨hmem, hpred⟩
    rw [Bool.and_eq_true] at hpred
    obtain ⟨hdir, hdig⟩ := hpred
    cases hlk : base.lookup d with
    | none =>
      rw [hlk] at hdir
      simp at hdir
    | some t =>
      rw [hlk] at hdir
      exact ⟨t, (lookup_eq_some_iff base hwf d t).mp hlk, hdir, hdig⟩
  · rintro ⟨t, hmem, hdir, hdig⟩
    have hlk := (lookup_eq_some_iff base hwf d t).mpr hmem
    refine ⟨(mem_names_iff base d).mpr ⟨t, hmem⟩, ?_⟩
    rw [Bool.and_eq_true, hlk]
    exact ⟨hdir, hdig⟩

/-- C2: for every well-formed project directory whose collection
succeeds, the result mapping contains an entry (p, c) exactly for the
files at any depth whose name passes the recognized-suffix test, with p
the rendered relative path and c the file's full content; files with a
non-recognized extension never appear as a key, and each key appears
exactly once. -/
theorem C2_collector_characterization (t : FS) (m : List (String × String))
    (hwf : t.wf = true) (hm : collect_source_files t = some m) :
    (∀ p c, (p, c) ∈ m ↔ ∃ comps, (comps, some c) ∈ allFiles [] t ∧
        hasSourceExt (lastNameD comps) = true ∧ p = renderPath comps) ∧
    (∀ comps oc, (comps, oc) ∈ allFiles [] t →
        hasSourceExt (lastNameD comps) = false →
        ∀ c2, (renderPath comps, c2) ∉ m) ∧
    (m.map Prod.fst).Nodup := by
  have hm2 : walkFS [] t = some m := hm
  have hmeq := walkFS_eq_keep [] t m hm2
  refine ⟨?_, ?_, collect_keys_nodup t hwf m hm2⟩
  · intro p c
    rw [hmeq, List.mem_filterMap]
    constructor
    · rintro ⟨⟨comps, oc⟩, hpr, hk⟩
      obtain ⟨h2, he, h1⟩ := keepEntry_eq_some (comps, oc) (p, c) hk
      have hoc : oc = some c := h2
      subst hoc
      exact ⟨comps, hpr, he, h1⟩
    · rintro ⟨comps, hmem, he, rfl⟩
      exact ⟨(comps, some c), hmem, keepEntry_keeps comps c he⟩
  · intro comps oc hmem hne c2 hc2
    rw [hmeq, List.mem_filterMap] at hc2
    obtain ⟨⟨comps2, oc2⟩, hpr, hk⟩ := hc2
    obtain ⟨h2, he, h1⟩ := keepEntry_eq_some (comps2, oc2) (renderPath comps, c2) hk
    have h1a : renderPath comps = renderPath comps2 := h1
    have hea : hasSourceExt (lastNameD comps2) = true := he
    have hceq : comps = comps2 := renderPath_inj comps comps2
      (allFiles_root_valid t hwf (comps, oc) hmem)
      (allFiles_root_valid t hwf (comps2, oc2) hpr) h1a
    rw [← hceq] at hea
    rw [hne] at hea
    exact Bool.false_ne_true hea

/-- C3: for every operator input line, a parse failure or a parsed index
outside the valid range makes the Driver report an invalid-input or
invalid-choice message and terminate without writing any output file. -/
theorem C3_invalid_selection (bp : String) (base : Entries) (inp : Option Int)
    (h : inp = none ∨ ∃ ch : Int, inp = some ch ∧
      (ch < 0 ∨ ((get_project_directories base).length : Int) ≤ ch)) :
    (pyMain bp base inp = Outcome.invalidInput ∨
      pyMain bp base inp = Outcome.invalidChoice) ∧
    ∀ p s, pyMain bp base inp ≠ Outcome.written p s := by
  rcases h with rfl | ⟨ch, rfl, hch⟩
  · have hv : pyMain bp base none = Outcome.invalidInput := rfl
    refine ⟨Or.inl hv, ?_⟩
    intro p s
    rw [hv]
    simp
  · have hv : pyMain bp base (some ch) = Outcome.invalidChoice := by
      simp only [pyMain]
      rw [if_pos hch]
    refine ⟨Or.inr hv, ?_⟩
    intro p s
    rw [hv]
    simp

/-- C4: the Prompt Formatter produces a single string made of a leading
triple-quote marker, one fenced block per entry of the mapping in its
received order (header line with the relative path, blank line, raw
content, closing fence), and a trailing triple-quote marker; no entry is
lost or duplicated and the header order equals the mapping order. -/
theorem C4_formatter_shape : ∀ sf : List (String × String),
    create_prompt sf = promptSpecForm sf :=
  create_prompt_eq

/-- C5: every run that writes does so at exactly the path formed from the
base path, the fixed scripts subdirectory, the selected project name and
the literal suffix, and at no other path. -/
theorem C5_output_path (bp : String) (base : Entries) (inp : Option Int) (p c : String)
    (h : pyMain bp base inp = Outcome.written p c) :
    ∃ ch : Int, inp = some ch ∧ 0 ≤ ch ∧
      ch.toNat < (get_project_directories base).length ∧
      p = bp ++ "/scripts/" ++ (get_project_directories base).getD ch.toNat "" ++
        "_prompt.txt" := by
  obtain ⟨ch, m, rfl, hrange, _, hp, _⟩ := pyMain_written_inv bp base inp p c h
  push_neg at hrange
  exact ⟨ch, rfl, by omega, by omega, hp⟩

/-- C6: two runs with the same base path, the same listing and the same
operator selection produce byte-identical output files. -/
theorem C6_deterministic (bp : String) (base : Entries) (inp : Option Int)
    (p1 c1 p2 c2 : String)
    (h1 : pyMain bp base inp = Outcome.written p1 c1)
    (h2 : pyMain bp base inp = Outcome.written p2 c2) :
    p1 = p2 ∧ c1 = c2 := by
  rw [h1] at h2
  injection h2 with hp hc
  exact ⟨hp, hc⟩

/-- C7: a run writes only if collection succeeded, and what it writes is
the formatted result of that collection; an error during collecting or
formatting therefore never produces an output file. -/
theorem C7_write_after_success (bp : String) (base : Entries) (inp : Option Int)
    (p c : String) (h : pyMain bp base inp = Outcome.written p c) :
    ∃ ch m, inp = some ch ∧
      collect_source_files
        ((base.lookup ((get_project_directories base).getD ch.toNat "")).getD
          (FS.dir Entries.nil)) = some m ∧
      c = create_prompt m := by
  obtain ⟨ch, m, rfl, _, hcol, _, hc⟩ := pyMain_written_inv bp base inp p c h
  exact ⟨ch, m, rfl, hcol, hc⟩

/-- C8: the File Collector performs only reads — every access in its
trace is a read, and replaying the trace leaves any filesystem
unchanged. -/
theorem C8_collector_pure_read (t g : FS) :
    (collectEvents t).all FSEvent.isRead = true ∧
    (collectEvents t).foldl applyEvent g = g :=
  ⟨eventsFS_all_read [] t, foldl_reads (eventsFS [] t) (eventsFS_all_read [] t) g⟩

/-- C9: on the empty mapping the Prompt Formatter returns exactly the
triple-quote marker, a newline and a second triple-quote marker, and the
formatted output is never the empty string. -/
theorem C9_empty_prompt :
    create_prompt [] = "\"\"\"" ++ "\n" ++ "\"\"\"" ∧
    ∀ sf : List (String × String), 0 < (create_prompt sf).length := by
  constructor
  · decide
  · intro sf
    rw [create_prompt_eq]
    unfold promptSpecForm
    rw [String.length_append, String.length_append]
    have h3 : 0 < ("\"\"\"" : String).length := by decide
    omega

/-- C10: a file whose entire name is exactly one of the recognized
extensions is included by the File Collector — the suffix test needs no
characters before the extension. -/
theorem C10_extension_only_name (t : FS) (m : List (String × String))
    (comps : List String) (c : String)
    (hm : collect_source_files t = some m)
    (hf : (comps, some c) ∈ allFiles [] t)
    (hext : lastNameD comps ∈ sourceExtensions) :
    (renderPath comps, c) ∈ m := by
  have he : hasSourceExt (lastNameD comps) = true := by
    simp only [sourceExtensions, List.mem_cons, List.not_mem_nil, or_false] at hext
    rcases hext with hx | hx | hx | hx | hx | hx | hx | hx <;> rw [hx] <;> decide
  have hm2 : walkFS [] t = some m := hm
  rw [walkFS_eq_keep [] t m hm2, List.mem_filterMap]
  exact ⟨(comps, some c), hf, keepEntry_keeps comps c he⟩

/-! ### Concrete example runs -/

/-- An example project tree: a matched file at the root, a matched file
in a subdirectory and an unmatched file. -/
def exProject : FS :=
  FS.dir (Entries.cons "m.rs" (FS.file (some "fn main()"))
    (Entries.cons "sub" (FS.dir (Entries.cons "n.py" (FS.file (some "x = 1")) Entries.nil))
      (Entries.cons "notes.txt" (FS.file (some "hello")) Entries.nil)))

/-- The mapping the collector produces on the example project. -/
def exM : List (String × String) :=
  [("m.rs", "fn main()"), ("sub/n.py", "x = 1")]

/-- An example base directory with one qualifying project, one
non-digit directory and one loose file. -/
def exBase : Entries :=
  Entries.cons "0_demo" exProject
    (Entries.cons "notes" (FS.dir Entries.nil)
      (Entries.cons "readme.txt" (FS.file (some "r")) Entries.nil))

/-- A tree containing a file whose whole name is an extension. -/
def exDot : FS :=
  FS.dir (Entries.cons ".py" (FS.file (some "p")) Entries.nil)

/-- Witness for C1 at a concrete listing. -/
theorem C1_lister_iff_witness :
    Entries.wf exBase = true ∧
    ("0_demo" ∈ get_project_directories exBase ↔
      ∃ t, ("0_demo", t) ∈ exBase.toList ∧ t.isDir = true ∧
        startsWithDigit "0_demo" = true) :=
  ⟨by decide, C1_lister_iff exBase (by decide) "0_demo"⟩

/-- Witness for C2 at a concrete project tree. -/
theorem C2_collector_characterization_witness :
    (FS.wf exProject = true ∧ collect_source_files exProject = some exM) ∧
    (exM.map Prod.fst).Nodup :=
  ⟨⟨by decide, by decide⟩,
    (C2_collector_characterization exProject exM (by decide) (by decide)).2.2⟩

/-- Witness for C3: selection 5 with a single listed project. -/
theorem C3_invalid_selection_witness :
    ((some 5 : Option Int) = none ∨ ∃ ch : Int, (some 5 : Option Int) = some ch ∧
      (ch < 0 ∨ ((get_project_directories exBase).length : Int) ≤ ch)) ∧
    ((pyMain "/base" exBase (some 5) = Outcome.invalidInput ∨
      pyMain "/base" exBase (some 5) = Outcome.invalidChoice) ∧
      ∀ p s, pyMain "/base" exBase (some 5) ≠ Outcome.written p s) :=
  ⟨Or.inr ⟨5, rfl, Or.inr (by decide)⟩,
    C3_invalid_selection "/base" exBase (some 5)
      (Or.inr ⟨5, rfl, Or.inr (by decide)⟩)⟩

/-- Witness for C5 at a concrete writing run. -/
theorem C5_output_path_witness :
    pyMain "/base" exBase (some 0) =
      Outcome.written "/base/scripts/0_demo_prompt.txt" (create_prompt exM) ∧
    ∃ ch : Int, (some 0 : Option Int) = some ch ∧ 0 ≤ ch ∧
      ch.toNat < (get_project_directories exBase).length ∧
      "/base/scripts/0_demo_prompt.txt" = "/base" ++ "/scripts/" ++
        (get_project_directories exBase).getD ch.toNat "" ++ "_prompt.txt" :=
  ⟨by decide,
    C5_output_path "/base" exBase (some 0) "/base/scripts/0_demo_prompt.txt"
      (create_prompt exM) (by decide)⟩

/-- Witness for C6 at a concrete writing run. -/
theorem C6_deterministic_witness :
    ("/base/scripts/0_demo_prompt.txt" : String) = "/base/scripts/0_demo_prompt.txt" ∧
    create_prompt exM = create_prompt exM :=
  C6_deterministic "/base" exBase (some 0) "/base/scripts/0_demo_prompt.txt"
    (create_prompt exM) "/base/scripts/0_demo_prompt.txt" (create_prompt exM)
    (by decide) (by decide)

/-- Witness for C7 at a concrete writing run. -/
theorem C7_write_after_success_witness :
    pyMain "/base" exBase (some 0) =
      Outcome.written "/base/scripts/0_demo_prompt.txt" (create_prompt exM) ∧
    ∃ ch m, (some 0 : Option Int) = some ch ∧
      collect_source_files
        ((exBase.lookup ((get_project_directories exBase).getD ch.toNat "")).getD
          (FS.dir Entries.nil)) = some m ∧
      create_prompt exM = create_prompt m :=
  ⟨by decide,
    C7_write_after_success "/base" exBase (some 0) "/base/scripts/0_demo_prompt.txt"
      (create_prompt exM) (by decide)⟩

/-- Witness for C10: a file named exactly like an extension is
collected. -/
theorem C10_extension_only_name_witness :
    (collect_source_files exDot = some [(".py", "p")] ∧
      ([".py"], some "p") ∈ allFiles [] exDot ∧
      lastNameD [".py"] ∈ sourceExtensions) ∧
    (renderPath [".py"], "p") ∈ [((".py" : String), ("p" : String))] :=
  ⟨⟨by decide, by decide, by decide⟩,
    C10_extension_only_name exDot [(".py", "p")] [".py"] "p" (by decide) (by decide)
      (by decide)⟩
